import Mathlib

/-!
Verification development for the metrics IPC collector core
(`events.rs`, `collector/socket.rs`, `collector/unnamed_pipe.rs`,
`collector/handlers.rs`, `recorder/socket.rs`, `recorder/unnamed_pipe.rs`).

Modelling conventions:
* Rust `String` values are modelled as their UTF-8 byte sequences, `List Nat`
  with every element below 256.  Rust orders `String` by these bytes, so the
  `BTreeMap<String, String>` label map is modelled as an association list
  strictly sorted by byte-lexicographic key order.
* `u64` payloads are `Nat` values below 2^64; `f64` payloads are modelled by
  their IEEE-754 bit pattern, a `Nat` below 2^64.  The codec only moves the
  raw eight bytes of an `f64`, so the bit pattern is exactly what is encoded
  and decoded.
* The wire codec is `rmp_serde` (MessagePack).  The serde attributes on the
  event types (`tag = "type"` internal tagging on `MetricEvent`, the
  `flatten`ed adjacently tagged `MetricOperation` with `tag = "operation"`,
  `content = "value"`, `rename_all` renamings, and
  `skip_serializing_if = "Option::is_none"` on the metadata unit) force every
  event onto the wire as a MessagePack map with string keys; field values use
  the compact MessagePack scalar encodings (fixint/uint8/16/32/64 for `u64`,
  the 9-byte float-64 form for `f64`, fixstr/str8/16/32 for strings,
  fixmap/map16/map32 for maps) and unit enum variants are encoded as their
  variant-name strings.  `rmp_serde::from_slice` decodes one MessagePack value
  from the front of the buffer and ignores any trailing bytes.
* Transport I/O is modelled by explicit read traces and a write buffer.
-/

namespace MetricsIpc

/-- Big-endian byte string of width `k` for the natural number `n`
(the MessagePack multi-byte length/value layout). -/
def be : Nat → Nat → List Nat
  | 0, _ => []
  | k + 1, n => be k (n / 256) ++ [n % 256]

/-- Value of a big-endian byte string. -/
def beVal (bs : List Nat) : Nat :=
  bs.foldl (fun acc b => acc * 256 + b) 0

/-- Take exactly `k` bytes from the front of the input, failing when fewer
are available (the reader running out of input mid-value). -/
def readN (k : Nat) (bs : List Nat) : Option (List Nat × List Nat) :=
  if k ≤ bs.length then some (bs.take k, bs.drop k) else none

/-- Strict byte-lexicographic order on byte strings; this is the order Rust
uses for `String` keys of a `BTreeMap`. -/
def bytesLt : List Nat → List Nat → Bool
  | [], [] => false
  | [], _ :: _ => true
  | _ :: _, [] => false
  | a :: as, b :: bs => if a < b then true else if b < a then false else bytesLt as bs

/-- The kind of metric being recorded (`events.rs`, `MetricKind`). -/
inductive MetricKind where
  | Counter
  | Gauge
  | Histogram
deriving DecidableEq

/-- Metadata describing a metric (`events.rs`, `MetricMetadata`); `name`,
`description` and the optional `unit` are UTF-8 byte strings. -/
structure MetricMetadata where
  name : List Nat
  kind : MetricKind
  description : List Nat
  unit : Option (List Nat)
deriving DecidableEq

/-- Operations on a metric (`events.rs`, `MetricOperation`); counter payloads
are `u64` values, gauge and histogram payloads are `f64` bit patterns. -/
inductive MetricOperation where
  | incrementCounter (v : Nat)
  | setCounter (v : Nat)
  | incrementGauge (bits : Nat)
  | decrementGauge (bits : Nat)
  | setGauge (bits : Nat)
  | recordHistogram (bits : Nat)
deriving DecidableEq

/-- Data of a single metric event (`events.rs`, `MetricData`); the
`BTreeMap<String, String>` label map is its sorted association list. -/
structure MetricData where
  name : List Nat
  labels : List (List Nat × List Nat)
  operation : MetricOperation
deriving DecidableEq

/-- An event sent over IPC (`events.rs`, `MetricEvent`). -/
inductive MetricEvent where
  | metadata (m : MetricMetadata)
  | metric (d : MetricData)
deriving DecidableEq

/-- Insertion into the sorted association list modelling
`BTreeMap::insert`: keeps keys strictly sorted, replaces the value on an
existing key. -/
def btInsert : List (List Nat × List Nat) → List Nat → List Nat → List (List Nat × List Nat)
  | [], k, v => [(k, v)]
  | (k0, v0) :: rest, k, v =>
    if bytesLt k k0 then (k, v) :: (k0, v0) :: rest
    else if bytesLt k0 k then (k0, v0) :: btInsert rest k v
    else (k, v) :: rest

/-- Building a `BTreeMap` from a sequence of key/value pairs
(`collect::<BTreeMap<_, _>>()` and the `FromIterator`/`Deserialize`
implementations insert the pairs left to right). -/
def btOfList (ps : List (List Nat × List Nat)) : List (List Nat × List Nat) :=
  ps.foldl (fun acc kv => btInsert acc kv.1 kv.2) []

/-- MessagePack header for a string of the given byte length
(fixstr, str8, str16, str32), as written by `rmp::encode::write_str_len`. -/
def encStrLen (len : Nat) : List Nat :=
  if len ≤ 31 then [160 + len]
  else if len ≤ 255 then [217, len]
  else if len ≤ 65535 then [218] ++ be 2 len
  else [219] ++ be 4 len

/-- MessagePack encoding of a string (header plus raw bytes). -/
def encStr (bs : List Nat) : List Nat :=
  encStrLen bs.length ++ bs

/-- Compact MessagePack encoding of an unsigned integer
(`rmp::encode::write_uint`): positive fixint, uint8, uint16, uint32, uint64. -/
def encUInt (n : Nat) : List Nat :=
  if n ≤ 127 then [n]
  else if n ≤ 255 then [204, n]
  else if n ≤ 65535 then [205] ++ be 2 n
  else if n ≤ 4294967295 then [206] ++ be 4 n
  else [207] ++ be 8 n

/-- MessagePack header for a map with the given number of entries
(fixmap, map16, map32), as written by `rmp::encode::write_map_len`. -/
def encMapLen (n : Nat) : List Nat :=
  if n ≤ 15 then [128 + n]
  else if n ≤ 65535 then [222] ++ be 2 n
  else [223] ++ be 4 n

/-- MessagePack values as used by the wire format of the event codec:
strings, unsigned integers, float-64 values (by bit pattern) and maps. -/
inductive Mp where
  | str (bs : List Nat)
  | uint (n : Nat)
  | f64 (bits : Nat)
  | map (es : List (Mp × Mp))

mutual

/-- Byte encoding of a MessagePack value. -/
def encodeMp : Mp → List Nat
  | .str bs => encStr bs
  | .uint n => encUInt n
  | .f64 bits => [203] ++ be 8 bits
  | .map es => encMapLen es.length ++ encEntries es

/-- Byte encoding of the entry list of a MessagePack map. -/
def encEntries : List (Mp × Mp) → List Nat
  | [] => []
  | (k, v) :: es => encodeMp k ++ encodeMp v ++ encEntries es

end

mutual

/-- Fuel needed by the parser to consume this value. -/
def mpFuel : Mp → Nat
  | .str _ => 1
  | .uint _ => 1
  | .f64 _ => 1
  | .map es => esFuel es + 1

/-- Fuel needed by the parser to consume this entry list. -/
def esFuel : List (Mp × Mp) → Nat
  | [] => 0
  | (k, v) :: es => mpFuel k + mpFuel v + esFuel es + 1

end

/-- Well-formedness of a byte string standing for a Rust `String`: every
element is a byte and the length fits the MessagePack 32-bit length field. -/
def wfBytes (bs : List Nat) : Bool :=
  decide (bs.length < 4294967296) && bs.all fun b => decide (b < 256)

mutual

/-- Well-formedness of a MessagePack value: integers and float bit patterns
fit in 64 bits, string and map lengths fit in the 32-bit MessagePack length
fields, string content consists of bytes. -/
def wfMp : Mp → Bool
  | .str bs => wfBytes bs
  | .uint n => decide (n < 18446744073709551616)
  | .f64 bits => decide (bits < 18446744073709551616)
  | .map es => decide (es.length < 4294967296) && wfEntries es

/-- Well-formedness of a MessagePack map entry list. -/
def wfEntries : List (Mp × Mp) → Bool
  | [] => true
  | (k, v) :: es => wfMp k && wfMp v && wfEntries es

end

/-- UTF-8 bytes of the internal tag key `"type"`. -/
def keyType : List Nat := [116, 121, 112, 101]

/-- UTF-8 bytes of the tag value `"metadata"` (`rename_all = "lowercase"`). -/
def valMetadata : List Nat := [109, 101, 116, 97, 100, 97, 116, 97]

/-- UTF-8 bytes of the tag value `"metric"` (`rename_all = "lowercase"`). -/
def valMetric : List Nat := [109, 101, 116, 114, 105, 99]

/-- UTF-8 bytes of the field key `"name"`. -/
def keyName : List Nat := [110, 97, 109, 101]

/-- UTF-8 bytes of the field key `"kind"`. -/
def keyKind : List Nat := [107, 105, 110, 100]

/-- UTF-8 bytes of the field key `"description"`. -/
def keyDescription : List Nat := [100, 101, 115, 99, 114, 105, 112, 116, 105, 111, 110]

/-- UTF-8 bytes of the field key `"unit"`. -/
def keyUnit : List Nat := [117, 110, 105, 116]

/-- UTF-8 bytes of the field key `"labels"`. -/
def keyLabels : List Nat := [108, 97, 98, 101, 108, 115]

/-- UTF-8 bytes of the adjacent tag key `"operation"`. -/
def keyOperation : List Nat := [111, 112, 101, 114, 97, 116, 105, 111, 110]

/-- UTF-8 bytes of the adjacent content key `"value"`. -/
def keyValue : List Nat := [118, 97, 108, 117, 101]

/-- Variant-name string of a `MetricKind` value, as `rmp_serde` writes unit
enum variants. -/
def kindName : MetricKind → List Nat
  | .Counter => [67, 111, 117, 110, 116, 101, 114]
  | .Gauge => [71, 97, 117, 103, 101]
  | .Histogram => [72, 105, 115, 116, 111, 103, 114, 97, 109]

/-- Adjacent tag string of a `MetricOperation` variant
(`rename_all = "snake_case"`): `"increment_counter"`, `"set_counter"`,
`"increment_gauge"`, `"decrement_gauge"`, `"set_gauge"`,
`"record_histogram"`. -/
def opTag : MetricOperation → List Nat
  | .incrementCounter _ =>
      [105, 110, 99, 114, 101, 109, 101, 110, 116, 95, 99, 111, 117, 110, 116, 101, 114]
  | .setCounter _ => [115, 101, 116, 95, 99, 111, 117, 110, 116, 101, 114]
  | .incrementGauge _ =>
      [105, 110, 99, 114, 101, 109, 101, 110, 116, 95, 103, 97, 117, 103, 101]
  | .decrementGauge _ =>
      [100, 101, 99, 114, 101, 109, 101, 110, 116, 95, 103, 97, 117, 103, 101]
  | .setGauge _ => [115, 101, 116, 95, 103, 97, 117, 103, 101]
  | .recordHistogram _ =>
      [114, 101, 99, 111, 114, 100, 95, 104, 105, 115, 116, 111, 103, 114, 97, 109]

/-- MessagePack value of the adjacent content field of a `MetricOperation`:
the `u64` itself for counters, the float-64 value for gauges/histograms. -/
def opValueMp : MetricOperation → Mp
  | .incrementCounter v => .uint v
  | .setCounter v => .uint v
  | .incrementGauge b => .f64 b
  | .decrementGauge b => .f64 b
  | .setGauge b => .f64 b
  | .recordHistogram b => .f64 b

/-- MessagePack value of the label map (string keys to string values, in the
sorted iteration order of the `BTreeMap`). -/
def labelsMp (ls : List (List Nat × List Nat)) : Mp :=
  .map (ls.map fun kv => (.str kv.1, .str kv.2))

/-- MessagePack value of a `MetricEvent` as serialized by
`rmp_serde::to_vec` under the serde attributes of `events.rs`: a map whose
first entry is the internal tag `"type"`, followed by the struct fields in
declaration order; a `None` unit is skipped; the flattened adjacently tagged
operation contributes the `"operation"` and `"value"` entries. -/
def eventToMp : MetricEvent → Mp
  | .metadata m =>
      .map ([(.str keyType, .str valMetadata),
             (.str keyName, .str m.name),
             (.str keyKind, .str (kindName m.kind)),
             (.str keyDescription, .str m.description)] ++
            (match m.unit with
             | some u => [(.str keyUnit, .str u)]
             | none => []))
  | .metric d =>
      .map [(.str keyType, .str valMetric),
            (.str keyName, .str d.name),
            (.str keyLabels, labelsMp d.labels),
            (.str keyOperation, .str (opTag d.operation)),
            (.str keyValue, opValueMp d.operation)]

/-- Encoded byte sequence of a `MetricEvent`
(`TryFrom<MetricEvent> for Vec<u8>` in `events.rs`, i.e.
`rmp_serde::to_vec(&event)`). -/
def encodeEvent (e : MetricEvent) : List Nat :=
  encodeMp (eventToMp e)

/-- Parse the body of a string once its byte length is known. -/
def parseStrBody (len : Nat) (bs : List Nat) : Option (Mp × List Nat) :=
  (readN len bs).map fun p => (.str p.1, p.2)

/-- Parse a `k`-byte big-endian unsigned integer body. -/
def parseUintK (k : Nat) (bs : List Nat) : Option (Mp × List Nat) :=
  (readN k bs).map fun p => (.uint (beVal p.1), p.2)

/-- Parse the eight-byte body of a float-64 value. -/
def parseF64Body (bs : List Nat) : Option (Mp × List Nat) :=
  (readN 8 bs).map fun p => (.f64 (beVal p.1), p.2)

/-- Parser for `n` key/value entries of a MessagePack map, given a parser
for single values. -/
def parseList (p : List Nat → Option (Mp × List Nat)) :
    Nat → List Nat → Option (List (Mp × Mp) × List Nat)
  | 0, input => some ([], input)
  | n + 1, input =>
    (p input).bind fun kr =>
      (p kr.2).bind fun vr =>
        (parseList p n vr.2).bind fun esr =>
          some ((kr.1, vr.1) :: esr.1, esr.2)

/-- Fuelled parser for one MessagePack value from the front of the input,
returning the value and the unconsumed remainder (mirrors the
`rmp_serde` deserializer, which reads exactly one value and leaves trailing
bytes untouched). -/
def parseMp : Nat → List Nat → Option (Mp × List Nat)
  | 0, _ => none
  | _ + 1, [] => none
  | fuel + 1, b :: rest =>
    if b < 128 then some (.uint b, rest)
    else if b < 144 then
      (parseList (fun inp => parseMp fuel inp) (b - 128) rest).bind fun p =>
        some (.map p.1, p.2)
    else if 160 ≤ b ∧ b < 192 then parseStrBody (b - 160) rest
    else if b = 203 then parseF64Body rest
    else if b = 204 then parseUintK 1 rest
    else if b = 205 then parseUintK 2 rest
    else if b = 206 then parseUintK 4 rest
    else if b = 207 then parseUintK 8 rest
    else if b = 217 then
      (readN 1 rest).bind fun p => parseStrBody (beVal p.1) p.2
    else if b = 218 then
      (readN 2 rest).bind fun p => parseStrBody (beVal p.1) p.2
    else if b = 219 then
      (readN 4 rest).bind fun p => parseStrBody (beVal p.1) p.2
    else if b = 222 then
      (readN 2 rest).bind fun p =>
        (parseList (fun inp => parseMp fuel inp) (beVal p.1) p.2).bind fun q =>
          some (.map q.1, q.2)
    else if b = 223 then
      (readN 4 rest).bind fun p =>
        (parseList (fun inp => parseMp fuel inp) (beVal p.1) p.2).bind fun q =>
          some (.map q.1, q.2)
    else none

/-- First value bound to a string key in a MessagePack map entry list (serde
matches struct fields by key name, in whatever position they occur). -/
def mpLookup : List (Mp × Mp) → List Nat → Option Mp
  | [], _ => none
  | (Mp.str bs, v) :: rest, key => if bs = key then some v else mpLookup rest key
  | _ :: rest, key => mpLookup rest key

/-- String content of a MessagePack value, when it is a string. -/
def asStr : Mp → Option (List Nat)
  | .str bs => some bs
  | _ => none

/-- Unsigned-integer content of a MessagePack value. -/
def asUInt : Mp → Option Nat
  | .uint n => some n
  | _ => none

/-- Float-64 bit pattern of a MessagePack value. -/
def asF64 : Mp → Option Nat
  | .f64 bits => some bits
  | _ => none

/-- `MetricKind` whose variant name matches the given string. -/
def kindOfName (bs : List Nat) : Option MetricKind :=
  if bs = kindName .Counter then some .Counter
  else if bs = kindName .Gauge then some .Gauge
  else if bs = kindName .Histogram then some .Histogram
  else none

/-- Key/value byte-string pairs of a MessagePack map entry list; fails when an
entry is not a pair of strings (as `BTreeMap<String, String>` deserialization
does). -/
def labelPairs : List (Mp × Mp) → Option (List (List Nat × List Nat))
  | [] => some []
  | (Mp.str kb, Mp.str vb) :: es => (labelPairs es).map fun r => (kb, vb) :: r
  | _ :: _ => none

/-- Label map decoded from a MessagePack value: the entries are inserted into
a `BTreeMap` in wire order. -/
def labelsOfMp : Mp → Option (List (List Nat × List Nat))
  | .map es => (labelPairs es).map btOfList
  | _ => none

/-- `MetricOperation` reconstructed from the adjacent tag string and the
content value. -/
def opOf (tag : List Nat) (v : Mp) : Option MetricOperation :=
  if tag = opTag (.incrementCounter 0) then (asUInt v).map .incrementCounter
  else if tag = opTag (.setCounter 0) then (asUInt v).map .setCounter
  else if tag = opTag (.incrementGauge 0) then (asF64 v).map .incrementGauge
  else if tag = opTag (.decrementGauge 0) then (asF64 v).map .decrementGauge
  else if tag = opTag (.setGauge 0) then (asF64 v).map .setGauge
  else if tag = opTag (.recordHistogram 0) then (asF64 v).map .recordHistogram
  else none

/-- `MetricEvent` reconstructed from a decoded MessagePack value, following
the derived deserializers: the value must be a map, the internal `"type"` tag
selects the variant, fields are matched by key, a missing `"unit"` key yields
`None`, and the flattened operation is rebuilt from the `"operation"` and
`"value"` entries. -/
def eventOfMp : Mp → Option MetricEvent
  | .map es =>
    match (mpLookup es keyType).bind asStr with
    | none => none
    | some t =>
      if t = valMetadata then
        match (mpLookup es keyName).bind asStr,
              (mpLookup es keyKind).bind (fun k => (asStr k).bind kindOfName),
              (mpLookup es keyDescription).bind asStr with
        | some n, some k, some d =>
          match mpLookup es keyUnit with
          | none => some (.metadata ⟨n, k, d, none⟩)
          | some um =>
            match asStr um with
            | some u => some (.metadata ⟨n, k, d, some u⟩)
            | none => none
        | _, _, _ => none
      else if t = valMetric then
        match (mpLookup es keyName).bind asStr,
              (mpLookup es keyLabels).bind labelsOfMp,
              (mpLookup es keyOperation).bind asStr,
              mpLookup es keyValue with
        | some n, some ls, some tag, some v =>
          match opOf tag v with
          | some op => some (.metric ⟨n, ls, op⟩)
          | none => none
        | _, _, _, _ => none
      else none
  | _ => none

/-- Decoded `MetricEvent` of a byte buffer
(`TryFrom<&Vec<u8>> for MetricEvent` in `events.rs`, i.e.
`rmp_serde::from_slice(buffer)`): parse one MessagePack value from the front
of the buffer, ignore trailing bytes, and interpret the value.  The fuel
`2 * length + 2` dominates the fuel needed by any value that fits in the
buffer. -/
def decodeEvent (input : List Nat) : Option MetricEvent :=
  match parseMp (2 * input.length + 2) input with
  | some (v, _) => eventOfMp v
  | none => none

/-- The association list has strictly sorted keys (each key is
byte-lexicographically below every later key): the `BTreeMap` invariant. -/
def sortedKeysB : List (List Nat × List Nat) → Bool
  | [] => true
  | p :: rest => (rest.all fun q => bytesLt p.1 q.1) && sortedKeysB rest

/-- Well-formedness of a label map: entry count within the MessagePack length
field, well-formed byte strings, strictly sorted keys. -/
def wfLabels (ls : List (List Nat × List Nat)) : Bool :=
  decide (ls.length < 4294967296) &&
    (ls.all fun kv => wfBytes kv.1 && wfBytes kv.2) && sortedKeysB ls

/-- Well-formedness of an operation payload: counters carry a `u64`,
gauges and histograms carry an `f64` bit pattern. -/
def wfOperation : MetricOperation → Bool
  | .incrementCounter v => decide (v < 18446744073709551616)
  | .setCounter v => decide (v < 18446744073709551616)
  | .incrementGauge b => decide (b < 18446744073709551616)
  | .decrementGauge b => decide (b < 18446744073709551616)
  | .setGauge b => decide (b < 18446744073709551616)
  | .recordHistogram b => decide (b < 18446744073709551616)

/-- A valid `MetricEvent`: all strings are genuine byte strings, the label
map satisfies the `BTreeMap` invariant, numeric payloads fit their types. -/
def wfEvent : MetricEvent → Bool
  | .metadata m =>
      wfBytes m.name && wfBytes m.description &&
        (match m.unit with
         | some u => wfBytes u
         | none => true)
  | .metric d => wfBytes d.name && wfLabels d.labels && wfOperation d.operation

/-- Frame splitting performed by the per-connection read loops: repeated
`read_until(b'\n', &mut buffer)` calls on the byte stream.  Every frame
includes its trailing `0x0A` byte; bytes after the last terminator form a
final frame without one (the read at end of stream returns them). -/
def splitFramesAux : Nat → List Nat → List (List Nat)
  | 0, _ => []
  | _ + 1, [] => []
  | fuel + 1, bs =>
    let pre := bs.takeWhile fun b => b ≠ 10
    match bs.drop pre.length with
    | [] => [pre]
    | _ :: tail => (pre ++ [10]) :: splitFramesAux fuel tail

/-- Frames read from a complete byte stream by `read_until` framing. -/
def splitFrames (bs : List Nat) : List (List Nat) :=
  splitFramesAux (bs.length + 1) bs

/-- One call on the downstream metrics facade, as issued by the collector
handlers.  A `none` label argument is the plain (unlabeled) call form, a
`some` argument the labeled form.  The describe call records the metadata
fields; recognition of the unit string happens inside the external facade
crate (`metrics::Unit::from_string`) and is outside this embedding. -/
inductive FacadeCall where
  | counterIncrement (name : List Nat) (labels : Option (List (List Nat × List Nat))) (value : Nat)
  | counterAbsolute (name : List Nat) (labels : Option (List (List Nat × List Nat))) (value : Nat)
  | gaugeIncrement (name : List Nat) (labels : Option (List (List Nat × List Nat))) (bits : Nat)
  | gaugeDecrement (name : List Nat) (labels : Option (List (List Nat × List Nat))) (bits : Nat)
  | gaugeSet (name : List Nat) (labels : Option (List (List Nat × List Nat))) (bits : Nat)
  | histogramRecord (name : List Nat) (labels : Option (List (List Nat × List Nat))) (bits : Nat)
  | describe (kind : MetricKind) (name : List Nat) (unit : Option (List Nat))
      (description : List Nat)
deriving DecidableEq

/-- Facade call issued by `handle_metric_event` (`collector/handlers.rs`):
for each operation variant, the plain instrument call when the label map is
empty, otherwise the labeled call with the label pairs in iteration order. -/
def handle_metric_event (metric : MetricData) : FacadeCall :=
  match metric.operation with
  | .incrementCounter v =>
    if metric.labels.isEmpty then .counterIncrement metric.name none v
    else .counterIncrement metric.name (some metric.labels) v
  | .setCounter v =>
    if metric.labels.isEmpty then .counterAbsolute metric.name none v
    else .counterAbsolute metric.name (some metric.labels) v
  | .incrementGauge b =>
    if metric.labels.isEmpty then .gaugeIncrement metric.name none b
    else .gaugeIncrement metric.name (some metric.labels) b
  | .decrementGauge b =>
    if metric.labels.isEmpty then .gaugeDecrement metric.name none b
    else .gaugeDecrement metric.name (some metric.labels) b
  | .setGauge b =>
    if metric.labels.isEmpty then .gaugeSet metric.name none b
    else .gaugeSet metric.name (some metric.labels) b
  | .recordHistogram b =>
    if metric.labels.isEmpty then .histogramRecord metric.name none b
    else .histogramRecord metric.name (some metric.labels) b

/-- Facade call issued by `handle_metadata_event` (`collector/handlers.rs`):
one describe call for the metadata kind carrying name, optional unit string
and description. -/
def handle_metadata_event (m : MetricMetadata) : FacadeCall :=
  .describe m.kind m.name m.unit m.description

/-- Facade bridge behaviour as the specification words it: select the plain
call form exactly when the label set is empty, and map the six operation
variants one to one onto increment/absolute for counters,
increment/decrement/set for gauges, and record for histograms. -/
def specBridgeCall (metric : MetricData) : FacadeCall :=
  let lbls : Option (List (List Nat × List Nat)) :=
    if metric.labels.isEmpty then none else some metric.labels
  match metric.operation with
  | .incrementCounter v => .counterIncrement metric.name lbls v
  | .setCounter v => .counterAbsolute metric.name lbls v
  | .incrementGauge b => .gaugeIncrement metric.name lbls b
  | .decrementGauge b => .gaugeDecrement metric.name lbls b
  | .setGauge b => .gaugeSet metric.name lbls b
  | .recordHistogram b => .histogramRecord metric.name lbls b

/-- Label argument of a facade call (`none` is the plain call form). -/
def callLabels : FacadeCall → Option (List (List Nat × List Nat))
  | .counterIncrement _ ls _ => ls
  | .counterAbsolute _ ls _ => ls
  | .gaugeIncrement _ ls _ => ls
  | .gaugeDecrement _ ls _ => ls
  | .gaugeSet _ ls _ => ls
  | .histogramRecord _ ls _ => ls
  | .describe _ _ _ _ => none

/-- Facade call for one decoded event, as the per-connection loops dispatch
it (`Metadata` to `handle_metadata_event`, `Metric` to
`handle_metric_event`). -/
def eventCall : MetricEvent → FacadeCall
  | .metadata m => handle_metadata_event m
  | .metric d => handle_metric_event d

/-- Facade calls produced for one received frame: a frame that decodes yields
exactly one call, a frame that fails to decode is logged and yields none. -/
def dispatchFrame (bs : List Nat) : List FacadeCall :=
  match decodeEvent bs with
  | some e => [eventCall e]
  | none => []

/-- Outcome of one `read_until` call on a connection: a frame of bytes
(`Ok(n)` with `n > 0`), end of stream (`Ok(0)`), or a transport-level read
error (`Err(_)`). -/
inductive ReadResult where
  | frame (bs : List Nat)
  | eof
  | fail

/-- Error type of the library (`error.rs`, `MetricsError`). -/
inductive MetricsError where
  | io
  | recorder
  | serialization
  | deserialization
deriving DecidableEq

/-- Per-connection read loop of the named-socket collector
(`collector/socket.rs`, `run_collector`), applied to the trace of read
outcomes on one connection; returns the facade calls dispatched in order.
`Ok(0)` breaks the loop; a decoded event is dispatched; a decode failure is
logged and skipped; a read error is skipped and the loop continues
(`Err(_) => {}`). -/
def socketConnLoop : List ReadResult → List FacadeCall
  | [] => []
  | .eof :: _ => []
  | .fail :: rest => socketConnLoop rest
  | .frame bs :: rest => dispatchFrame bs ++ socketConnLoop rest

/-- Read loop of the pipe collector (`collector/unnamed_pipe.rs`,
`run_collector`), applied to the trace of read outcomes on the pipe; returns
the dispatched facade calls together with the function result.  `Ok(0)` logs
end of stream and breaks; a read error logs and breaks; both paths fall
through to the final `Ok(())` — no exit of the loop produces an `Err`. -/
def pipeRunCollector : List ReadResult → Except MetricsError (List FacadeCall)
  | [] => .ok []
  | .eof :: _ => .ok []
  | .fail :: _ => .ok []
  | .frame bs :: rest =>
    match pipeRunCollector rest with
    | .ok calls => .ok (dispatchFrame bs ++ calls)
    | .error e => .error e

/-- Producer-side metric identity (`metrics::Key`): a name plus the label
pairs in the order the key carries them. -/
structure Key where
  name : List Nat
  labels : List (List Nat × List Nat)

/-- Producer-side transport endpoint: the bytes written so far and whether
writes currently succeed (a failed flag stands for any failure of the write
path — serialization or transport I/O — since both surface as the one
`Result` that the update path discards). -/
structure Stream where
  buf : List Nat
  healthy : Bool

/-- The `write_event` helper shared by `recorder/socket.rs` and
`recorder/unnamed_pipe.rs`: encode the event, write the bytes, write the
`b"\n"` terminator, flush; any failure surfaces as an error result. -/
def write_event (st : Stream) (event : MetricEvent) : Except MetricsError Stream :=
  if st.healthy then .ok { st with buf := st.buf ++ encodeEvent event ++ [10] }
  else .error .io

/-- `MetricData` built by `Handle::push_metric` from a `metrics::Key`: the
label pairs are collected into a `BTreeMap`. -/
def metricOf (key : Key) (op : MetricOperation) : MetricData :=
  ⟨key.name, btOfList key.labels, op⟩

/-- `Handle::push_metric` (`recorder/socket.rs` and
`recorder/unnamed_pipe.rs`): build the metric event, write it, and discard
the result (`let _ = write_event(..)`); the caller always gets the stream
back with no error. -/
def push_metric (st : Stream) (key : Key) (op : MetricOperation) : Stream :=
  match write_event st (.metric (metricOf key op)) with
  | .ok st2 => st2
  | .error _ => st

/-- `CounterFn::increment` on a recorder handle. -/
def CounterFn.increment (st : Stream) (key : Key) (v : Nat) : Stream :=
  push_metric st key (.incrementCounter v)

/-- `CounterFn::absolute` on a recorder handle. -/
def CounterFn.absolute (st : Stream) (key : Key) (v : Nat) : Stream :=
  push_metric st key (.setCounter v)

/-- `GaugeFn::increment` on a recorder handle. -/
def GaugeFn.increment (st : Stream) (key : Key) (b : Nat) : Stream :=
  push_metric st key (.incrementGauge b)

/-- `GaugeFn::decrement` on a recorder handle. -/
def GaugeFn.decrement (st : Stream) (key : Key) (b : Nat) : Stream :=
  push_metric st key (.decrementGauge b)

/-- `GaugeFn::set` on a recorder handle. -/
def GaugeFn.set (st : Stream) (key : Key) (b : Nat) : Stream :=
  push_metric st key (.setGauge b)

/-- `HistogramFn::record` on a recorder handle. -/
def HistogramFn.record (st : Stream) (key : Key) (b : Nat) : Stream :=
  push_metric st key (.recordHistogram b)

theorem be_length (k n : Nat) : (be k n).length = k := by
  induction k generalizing n with
  | zero => simp [be]
  | succ k ih => simp [be, ih]

theorem beVal_append_one (xs : List Nat) (b : Nat) :
    beVal (xs ++ [b]) = beVal xs * 256 + b := by
  simp [beVal, List.foldl_append]

theorem beVal_be (k n : Nat) (h : n < 256 ^ k) : beVal (be k n) = n := by
  induction k generalizing n with
  | zero =>
    interval_cases n
    simp [be, beVal]
  | succ k ih =>
    have hdiv : n / 256 < 256 ^ k := by
      rw [Nat.div_lt_iff_lt_mul (by norm_num)]
      calc n < 256 ^ (k + 1) := h
        _ = 256 ^ k * 256 := by ring
    rw [be, beVal_append_one, ih (n / 256) hdiv]
    omega

theorem readN_exact (xs : List Nat) {k : Nat} (h : xs.length = k) (rest : List Nat) :
    readN k (xs ++ rest) = some (xs, rest) := by
  subst h
  unfold readN
  rw [if_pos (by simp)]
  simp

theorem bytesLt_asymm (a b : List Nat) (h : bytesLt a b = true) : bytesLt b a = false := by
  induction a generalizing b with
  | nil =>
    cases b with
    | nil => simp [bytesLt] at h
    | cons y ys => simp [bytesLt]
  | cons x xs ih =>
    cases b with
    | nil => simp [bytesLt] at h
    | cons y ys =>
      rcases Nat.lt_trichotomy x y with hlt | heq | hgt
      · simp [bytesLt, hlt, Nat.lt_asymm hlt]
      · subst heq
        simp only [bytesLt, lt_irrefl, if_false] at h ⊢
        exact ih ys h
      · simp [bytesLt, hgt, Nat.lt_asymm hgt] at h

theorem bytesLt_total_eq (a b : List Nat) (h1 : bytesLt a b = false)
    (h2 : bytesLt b a = false) : a = b := by
  induction a generalizing b with
  | nil =>
    cases b with
    | nil => rfl
    | cons y ys => simp [bytesLt] at h1
  | cons x xs ih =>
    cases b with
    | nil => simp [bytesLt] at h2
    | cons y ys =>
      rcases Nat.lt_trichotomy x y with hlt | heq | hgt
      · simp [bytesLt, hlt] at h1
      · subst heq
        simp only [bytesLt, lt_irrefl, if_false] at h1 h2
        rw [ih ys h1 h2]
      · simp [bytesLt, hgt] at h2

theorem bytesLt_trans (a b c : List Nat) (h1 : bytesLt a b = true)
    (h2 : bytesLt b c = true) : bytesLt a c = true := by
  induction a generalizing b c with
  | nil =>
    cases b with
    | nil => simp [bytesLt] at h1
    | cons y ys =>
      cases c with
      | nil => simp [bytesLt] at h2
      | cons z zs => simp [bytesLt]
  | cons x xs ih =>
    cases b with
    | nil => simp [bytesLt] at h1
    | cons y ys =>
      cases c with
      | nil => simp [bytesLt] at h2
      | cons z zs =>
        rcases Nat.lt_trichotomy x y with hxy | hxy | hxy
        · rcases Nat.lt_trichotomy y z with hyz | hyz | hyz
          · simp [bytesLt, Nat.lt_trans hxy hyz]
          · subst hyz
            simp [bytesLt, hxy]
          · simp [bytesLt, hyz, Nat.lt_asymm hyz] at h2
        · subst hxy
          simp only [bytesLt, lt_irrefl, if_false] at h1
          rcases Nat.lt_trichotomy x z with hyz | hyz | hyz
          · simp [bytesLt, hyz]
          · subst hyz
            simp only [bytesLt, lt_irrefl, if_false] at h2 ⊢
            exact ih ys zs h1 h2
          · simp [bytesLt, hyz, Nat.lt_asymm hyz] at h2
        · simp [bytesLt, hxy, Nat.lt_asymm hxy] at h1

theorem sortedKeysB_iff (ls : List (List Nat × List Nat)) :
    sortedKeysB ls = true ↔
      List.Pairwise (fun p q => bytesLt p.1 q.1 = true) ls := by
  induction ls with
  | nil => simp [sortedKeysB]
  | cons p rest ih =>
    simp [sortedKeysB, List.pairwise_cons, ih, List.all_eq_true, and_comm]

theorem mem_btInsert (k v : List Nat) :
    ∀ (acc : List (List Nat × List Nat)) (p : List Nat × List Nat),
      p ∈ btInsert acc k v → p ∈ acc ∨ p = (k, v) := by
  intro acc
  induction acc with
  | nil =>
    intro p h
    simp [btInsert] at h
    simp [h]
  | cons q rest ih =>
    obtain ⟨k0, v0⟩ := q
    intro p h
    simp only [btInsert] at h
    split_ifs at h with h1 h2
    · simp only [List.mem_cons] at h
      rcases h with h | h | h
      · right; exact h
      · left; simp [h]
      · left; simp [h]
    · simp only [List.mem_cons] at h
      rcases h with h | h
      · left; simp [h]
      · rcases ih p h with hh | hh
        · left; simp [hh]
        · right; exact hh
    · simp only [List.mem_cons] at h
      rcases h with h | h
      · right; exact h
      · left; simp [h]

theorem btInsert_pairwise (k v : List Nat) :
    ∀ acc, List.Pairwise (fun p q => bytesLt p.1 q.1 = true) acc →
      List.Pairwise (fun p q => bytesLt p.1 q.1 = true) (btInsert acc k v) := by
  intro acc
  induction acc with
  | nil =>
    intro _
    simp [btInsert]
  | cons q rest ih =>
    obtain ⟨k0, v0⟩ := q
    intro hp
    rw [List.pairwise_cons] at hp
    obtain ⟨hhead, htail⟩ := hp
    simp only [btInsert]
    split_ifs with h1 h2
    · rw [List.pairwise_cons]
      refine ⟨?_, ?_⟩
      · intro p hp
        rcases List.mem_cons.mp hp with hcase | hmem
        · rw [hcase]; exact h1
        · exact bytesLt_trans _ _ _ h1 (hhead p hmem)
      · rw [List.pairwise_cons]
        exact ⟨hhead, htail⟩
    · rw [List.pairwise_cons]
      refine ⟨?_, ih htail⟩
      intro p hp
      rcases mem_btInsert k v rest p hp with hmem | hcase
      · exact hhead p hmem
      · rw [hcase]; exact h2
    · have hk : k = k0 := by
        refine bytesLt_total_eq _ _ ?_ ?_
        · exact Bool.eq_false_iff.mpr h1
        · exact Bool.eq_false_iff.mpr h2
      rw [List.pairwise_cons]
      refine ⟨?_, htail⟩
      intro p hp
      rw [hk]
      exact hhead p hp

theorem foldl_btInsert_pairwise (ps : List (List Nat × List Nat)) :
    ∀ acc, List.Pairwise (fun p q => bytesLt p.1 q.1 = true) acc →
      List.Pairwise (fun p q => bytesLt p.1 q.1 = true)
        (ps.foldl (fun acc kv => btInsert acc kv.1 kv.2) acc) := by
  induction ps with
  | nil => intro acc h; simpa using h
  | cons p ps ih =>
    intro acc h
    simp only [List.foldl_cons]
    exact ih _ (btInsert_pairwise p.1 p.2 acc h)

theorem btOfList_pairwise (ps : List (List Nat × List Nat)) :
    List.Pairwise (fun p q => bytesLt p.1 q.1 = true) (btOfList ps) :=
  foldl_btInsert_pairwise ps [] (by simp)

theorem btInsert_perm_fresh (k v : List Nat) :
    ∀ acc, (∀ p ∈ acc, p.1 ≠ k) → (btInsert acc k v).Perm ((k, v) :: acc) := by
  intro acc
  induction acc with
  | nil =>
    intro _
    simp [btInsert]
  | cons q rest ih =>
    obtain ⟨k0, v0⟩ := q
    intro hfresh
    simp only [btInsert]
    split_ifs with h1 h2
    · exact List.Perm.refl _
    · have hrest : (btInsert rest k v).Perm ((k, v) :: rest) :=
        ih fun p hp => hfresh p (by simp [hp])
      exact (hrest.cons (k0, v0)).trans (List.Perm.swap (k, v) (k0, v0) rest)
    · have hk : k = k0 := by
        refine bytesLt_total_eq _ _ ?_ ?_
        · exact Bool.eq_false_iff.mpr h1
        · exact Bool.eq_false_iff.mpr h2
      exact absurd hk.symm (hfresh (k0, v0) (by simp))

theorem btOfList_append_one (ps : List (List Nat × List Nat))
    (p : List Nat × List Nat) :
    btOfList (ps ++ [p]) = btInsert (btOfList ps) p.1 p.2 := by
  simp [btOfList, List.foldl_append]

theorem btOfList_perm (ps : List (List Nat × List Nat))
    (h : (ps.map Prod.fst).Nodup) : (btOfList ps).Perm ps := by
  induction ps using List.reverseRecOn with
  | nil => simp [btOfList]
  | append_singleton ps p ih =>
    rw [List.map_append, List.nodup_append] at h
    obtain ⟨h1, _, h3⟩ := h
    have hfresh : ∀ q ∈ btOfList ps, q.1 ≠ p.1 := by
      intro q hq
      have hqps : q ∈ ps := ((ih h1).mem_iff).mp hq
      intro hcontra
      have hmem2 : q.1 ∈ [p].map Prod.fst := by simp [hcontra]
      exact h3 (List.mem_map_of_mem Prod.fst hqps) hmem2
    rw [btOfList_append_one]
    refine ((btInsert_perm_fresh p.1 p.2 _ hfresh).trans ?_)
    have : ((p.1, p.2) :: btOfList ps).Perm ((p.1, p.2) :: ps) := (ih h1).cons _
    refine this.trans ?_
    exact (List.perm_append_singleton p ps).symm

theorem btOfList_canonical (ps qs : List (List Nat × List Nat))
    (hnd : (ps.map Prod.fst).Nodup) (hperm : ps.Perm qs) :
    btOfList ps = btOfList qs := by
  have hnd2 : (qs.map Prod.fst).Nodup := ((hperm.map Prod.fst).nodup_iff).mp hnd
  have hp : (btOfList ps).Perm (btOfList qs) :=
    (btOfList_perm ps hnd).trans (hperm.trans (btOfList_perm qs hnd2).symm)
  haveI : IsAntisymm (List Nat × List Nat) (fun p q => bytesLt p.1 q.1 = true) := by
    refine ⟨?_⟩
    intro a b hab hba
    have hfalse := bytesLt_asymm _ _ hab
    rw [hba] at hfalse
    cases hfalse
  exact List.eq_of_perm_of_sorted hp (btOfList_pairwise ps) (btOfList_pairwise qs)

theorem btInsert_append_last (k v : List Nat) :
    ∀ acc, (∀ p ∈ acc, bytesLt p.1 k = true) → btInsert acc k v = acc ++ [(k, v)] := by
  intro acc
  induction acc with
  | nil =>
    intro _
    simp [btInsert]
  | cons q rest ih =>
    obtain ⟨k0, v0⟩ := q
    intro h
    have hk0 : bytesLt k0 k = true := h (k0, v0) (by simp)
    have hfalse : bytesLt k k0 = false := bytesLt_asymm _ _ hk0
    simp only [btInsert]
    rw [if_neg (by simp [hfalse]), if_pos hk0]
    rw [ih fun p hp => h p (by simp [hp])]
    simp

theorem btOfList_sorted_id (ls : List (List Nat × List Nat))
    (h : sortedKeysB ls = true) : btOfList ls = ls := by
  induction ls using List.reverseRecOn with
  | nil => simp [btOfList]
  | append_singleton ls p ih =>
    rw [sortedKeysB_iff, List.pairwise_append] at h
    obtain ⟨h1, _, h3⟩ := h
    rw [btOfList_append_one, ih ((sortedKeysB_iff ls).mpr h1)]
    rw [btInsert_append_last p.1 p.2 ls fun q hq => h3 q hq p (by simp)]

theorem beVal_one (c : Nat) : beVal [c] = c := by
  simp [beVal]

theorem parse_encStr (fuel : Nat) (bs rest : List Nat) (h : bs.length < 4294967296) :
    parseMp (fuel + 1) (encStr bs ++ rest) = some (.str bs, rest) := by
  have hread : readN bs.length (bs ++ rest) = some (bs, rest) := readN_exact bs rfl rest
  unfold encStr encStrLen
  by_cases h1 : bs.length ≤ 31
  · rw [if_pos h1]
    simp only [List.cons_append, List.nil_append, List.append_assoc]
    simp only [parseMp]
    rw [if_neg (by omega), if_neg (by omega), if_pos (by omega)]
    rw [Nat.add_sub_cancel_left]
    unfold parseStrBody
    rw [hread]
    rfl
  · by_cases h2 : bs.length ≤ 255
    · rw [if_neg h1, if_pos h2]
      simp only [List.cons_append, List.nil_append, List.append_assoc]
      simp only [parseMp]
      norm_num
      have hr1 : readN 1 (bs.length :: (bs ++ rest)) = some ([bs.length], bs ++ rest) :=
        readN_exact [bs.length] rfl (bs ++ rest)
      rw [hr1]
      simp only [Option.bind, beVal_one]
      unfold parseStrBody
      rw [hread]
      rfl
    · by_cases h3 : bs.length ≤ 65535
      · rw [if_neg h1, if_neg h2, if_pos h3]
        simp only [List.cons_append, List.nil_append, List.append_assoc]
        simp only [parseMp]
        norm_num
        have hr2 : readN 2 (be 2 bs.length ++ (bs ++ rest)) =
            some (be 2 bs.length, bs ++ rest) := readN_exact (be 2 bs.length) (be_length 2 _) _
        rw [hr2]
        simp only [Option.bind]
        rw [beVal_be 2 bs.length (by
          have hp : (256 : Nat) ^ 2 = 65536 := by norm_num
          omega)]
        unfold parseStrBody
        rw [hread]
        rfl
      · rw [if_neg h1, if_neg h2, if_neg h3]
        simp only [List.cons_append, List.nil_append, List.append_assoc]
        simp only [parseMp]
        norm_num
        have hr4 : readN 4 (be 4 bs.length ++ (bs ++ rest)) =
            some (be 4 bs.length, bs ++ rest) := readN_exact (be 4 bs.length) (be_length 4 _) _
        rw [hr4]
        simp only [Option.bind]
        rw [beVal_be 4 bs.length (by
          have hp : (256 : Nat) ^ 4 = 4294967296 := by norm_num
          omega)]
        unfold parseStrBody
        rw [hread]
        rfl

theorem parse_encUInt (fuel n : Nat) (rest : List Nat) (h : n < 18446744073709551616) :
    parseMp (fuel + 1) (encUInt n ++ rest) = some (.uint n, rest) := by
  unfold encUInt
  by_cases h1 : n ≤ 127
  · rw [if_pos h1]
    simp only [List.cons_append, List.nil_append]
    simp only [parseMp]
    rw [if_pos (by omega)]
  · by_cases h2 : n ≤ 255
    · rw [if_neg h1, if_pos h2]
      simp only [List.cons_append, List.nil_append]
      simp only [parseMp]
      norm_num
      unfold parseUintK
      have hr1 : readN 1 (n :: rest) = some ([n], rest) := readN_exact [n] rfl rest
      rw [hr1]
      simp only [Option.map, beVal_one]
    · by_cases h3 : n ≤ 65535
      · rw [if_neg h1, if_neg h2, if_pos h3]
        simp only [List.cons_append, List.nil_append, List.append_assoc]
        simp only [parseMp]
        norm_num
        unfold parseUintK
        rw [readN_exact (be 2 n) (be_length 2 n) rest]
        simp only [Option.map]
        rw [beVal_be 2 n (by
          have hp : (256 : Nat) ^ 2 = 65536 := by norm_num
          omega)]
      · by_cases h4 : n ≤ 4294967295
        · rw [if_neg h1, if_neg h2, if_neg h3, if_pos h4]
          simp only [List.cons_append, List.nil_append, List.append_assoc]
          simp only [parseMp]
          norm_num
          unfold parseUintK
          rw [readN_exact (be 4 n) (be_length 4 n) rest]
          simp only [Option.map]
          rw [beVal_be 4 n (by
            have hp : (256 : Nat) ^ 4 = 4294967296 := by norm_num
            omega)]
        · rw [if_neg h1, if_neg h2, if_neg h3, if_neg h4]
          simp only [List.cons_append, List.nil_append, List.append_assoc]
          simp only [parseMp]
          norm_num
          unfold parseUintK
          rw [readN_exact (be 8 n) (be_length 8 n) rest]
          simp only [Option.map]
          rw [beVal_be 8 n (by
            have hp : (256 : Nat) ^ 8 = 18446744073709551616 := by norm_num
            omega)]

theorem parse_encF64 (fuel bits : Nat) (rest : List Nat)
    (h : bits < 18446744073709551616) :
    parseMp (fuel + 1) (([203] ++ be 8 bits) ++ rest) = some (.f64 bits, rest) := by
  simp only [List.cons_append, List.nil_append, List.append_assoc]
  simp only [parseMp]
  norm_num
  unfold parseF64Body
  rw [readN_exact (be 8 bits) (be_length 8 bits) rest]
  simp only [Option.map]
  rw [beVal_be 8 bits (by
    have hp : (256 : Nat) ^ 8 = 18446744073709551616 := by norm_num
    omega)]

set_option maxHeartbeats 1600000

theorem mpFuel_pos (v : Mp) : 1 ≤ mpFuel v := by
  cases v <;> simp [mpFuel]

theorem parse_enc_main (N : Nat) :
    (∀ v : Mp, mpFuel v ≤ N → wfMp v = true → ∀ (g : Nat) (rest : List Nat),
      parseMp (g + mpFuel v) (encodeMp v ++ rest) = some (v, rest)) ∧
    (∀ es : List (Mp × Mp), esFuel es ≤ N → wfEntries es = true →
      ∀ F : Nat, esFuel es ≤ F → ∀ rest : List Nat,
      parseList (fun inp => parseMp F inp) es.length (encEntries es ++ rest) =
        some (es, rest)) := by
  induction N with
  | zero =>
    constructor
    · intro v hv _ _ _
      have := mpFuel_pos v
      omega
    · intro es hes _ F _ rest
      cases es with
      | nil =>
        rw [show ([] : List (Mp × Mp)).length = 0 from rfl]
        rw [show encEntries ([] : List (Mp × Mp)) = [] from rfl, List.nil_append]
        simp only [parseList]
      | cons kv es =>
        obtain ⟨k, v⟩ := kv
        have := mpFuel_pos k
        simp only [esFuel] at hes
        omega
  | succ N ih =>
    obtain ⟨ihMp, ihEs⟩ := ih
    constructor
    · intro v hv hw g rest
      cases v with
      | str bs =>
        simp only [wfMp, wfBytes, Bool.and_eq_true, decide_eq_true_eq] at hw
        rw [show g + mpFuel (Mp.str bs) = g + 1 from by simp [mpFuel]]
        rw [show encodeMp (Mp.str bs) = encStr bs from by simp [encodeMp]]
        exact parse_encStr g bs rest hw.1
      | uint n =>
        simp only [wfMp, decide_eq_true_eq] at hw
        rw [show g + mpFuel (Mp.uint n) = g + 1 from by simp [mpFuel]]
        rw [show encodeMp (Mp.uint n) = encUInt n from by simp [encodeMp]]
        exact parse_encUInt g n rest hw
      | f64 bits =>
        simp only [wfMp, decide_eq_true_eq] at hw
        rw [show g + mpFuel (Mp.f64 bits) = g + 1 from by simp [mpFuel]]
        rw [show encodeMp (Mp.f64 bits) = [203] ++ be 8 bits from by simp [encodeMp]]
        exact parse_encF64 g bits rest hw
      | map es =>
        simp only [wfMp, Bool.and_eq_true, decide_eq_true_eq] at hw
        obtain ⟨hlen, hesw⟩ := hw
        simp only [mpFuel] at hv
        have hent : parseList (fun inp => parseMp (g + esFuel es) inp) es.length
            (encEntries es ++ rest) = some (es, rest) :=
          ihEs es (by omega) hesw (g + esFuel es) (by omega) rest
        rw [show g + mpFuel (Mp.map es) = (g + esFuel es) + 1 from by
          simp only [mpFuel]
          omega]
        rw [show encodeMp (Mp.map es) = encMapLen es.length ++ encEntries es from by
          simp [encodeMp]]
        unfold encMapLen
        by_cases h1 : es.length ≤ 15
        · rw [if_pos h1]
          simp only [List.cons_append, List.nil_append, List.append_assoc]
          simp only [parseMp]
          rw [if_neg (by omega), if_pos (by omega)]
          rw [Nat.add_sub_cancel_left]
          rw [hent]
          rfl
        · by_cases h2 : es.length ≤ 65535
          · rw [if_neg h1, if_pos h2]
            simp only [List.cons_append, List.nil_append, List.append_assoc]
            simp only [parseMp]
            norm_num
            rw [readN_exact (be 2 es.length) (be_length 2 es.length)
              (encEntries es ++ rest)]
            simp only [Option.bind]
            rw [beVal_be 2 es.length (by
              have hp : (256 : Nat) ^ 2 = 65536 := by norm_num
              omega)]
            rw [hent]
          · rw [if_neg h1, if_neg h2]
            simp only [List.cons_append, List.nil_append, List.append_assoc]
            simp only [parseMp]
            norm_num
            rw [readN_exact (be 4 es.length) (be_length 4 es.length)
              (encEntries es ++ rest)]
            simp only [Option.bind]
            rw [beVal_be 4 es.length (by
              have hp : (256 : Nat) ^ 4 = 4294967296 := by norm_num
              omega)]
            rw [hent]
    · intro es hes hw F hF rest
      cases es with
      | nil =>
        rw [show ([] : List (Mp × Mp)).length = 0 from rfl]
        rw [show encEntries ([] : List (Mp × Mp)) = [] from rfl, List.nil_append]
        simp only [parseList]
      | cons kv es =>
        obtain ⟨k, v⟩ := kv
        simp only [wfEntries, Bool.and_eq_true] at hw
        obtain ⟨⟨hk, hv⟩, hesw⟩ := hw
        simp only [esFuel] at hes hF
        have e1 : parseMp F (encodeMp k ++ (encodeMp v ++ (encEntries es ++ rest))) =
            some (k, encodeMp v ++ (encEntries es ++ rest)) := by
          have h0 := ihMp k (by omega) hk (F - mpFuel k)
            (encodeMp v ++ (encEntries es ++ rest))
          rw [show F - mpFuel k + mpFuel k = F from by omega] at h0
          exact h0
        have e2 : parseMp F (encodeMp v ++ (encEntries es ++ rest)) =
            some (v, encEntries es ++ rest) := by
          have h0 := ihMp v (by omega) hv (F - mpFuel v) (encEntries es ++ rest)
          rw [show F - mpFuel v + mpFuel v = F from by omega] at h0
          exact h0
        have e3 : parseList (fun inp => parseMp F inp) es.length
            (encEntries es ++ rest) = some (es, rest) :=
          ihEs es (by omega) hesw F (by omega) rest
        rw [show ((k, v) :: es).length = es.length + 1 from rfl]
        rw [show encEntries ((k, v) :: es) =
            encodeMp k ++ encodeMp v ++ encEntries es from by simp [encEntries]]
        simp only [List.append_assoc]
        simp only [parseList]
        rw [e1]
        simp only [Option.bind]
        rw [e2]
        simp only [Option.bind]
        rw [e3]

theorem parse_encMp (v : Mp) (hw : wfMp v = true) (g : Nat) (rest : List Nat) :
    parseMp (g + mpFuel v) (encodeMp v ++ rest) = some (v, rest) :=
  (parse_enc_main (mpFuel v)).1 v le_rfl hw g rest

theorem parse_encList (es : List (Mp × Mp)) (hw : wfEntries es = true) (F : Nat)
    (hF : esFuel es ≤ F) (rest : List Nat) :
    parseList (fun inp => parseMp F inp) es.length (encEntries es ++ rest) =
      some (es, rest) :=
  (parse_enc_main (esFuel es)).2 es le_rfl hw F hF rest

set_option maxHeartbeats 400000

theorem encStrLen_length_pos (n : Nat) : 1 ≤ (encStrLen n).length := by
  unfold encStrLen
  split_ifs <;> simp [be_length]

theorem encUInt_length_pos (n : Nat) : 1 ≤ (encUInt n).length := by
  unfold encUInt
  split_ifs <;> simp [be_length]

theorem encMapLen_length_pos (n : Nat) : 1 ≤ (encMapLen n).length := by
  unfold encMapLen
  split_ifs <;> simp [be_length]

theorem encLen_bound (N : Nat) :
    (∀ v : Mp, mpFuel v ≤ N → mpFuel v + 1 ≤ 2 * (encodeMp v).length) ∧
    (∀ es : List (Mp × Mp), esFuel es ≤ N → esFuel es ≤ 2 * (encEntries es).length) := by
  induction N with
  | zero =>
    constructor
    · intro v hv
      have := mpFuel_pos v
      omega
    · intro es hes
      cases es with
      | nil => simp [esFuel]
      | cons kv es =>
        obtain ⟨k, v⟩ := kv
        have := mpFuel_pos k
        simp only [esFuel] at hes
        omega
  | succ N ih =>
    obtain ⟨ihMp, ihEs⟩ := ih
    constructor
    · intro v hv
      cases v with
      | str bs =>
        have h1 := encStrLen_length_pos bs.length
        simp only [mpFuel, encodeMp, encStr, List.length_append]
        omega
      | uint n =>
        have h1 := encUInt_length_pos n
        simp only [mpFuel, encodeMp]
        omega
      | f64 bits =>
        simp only [mpFuel, encodeMp, List.length_append, be_length]
        omega
      | map es =>
        simp only [mpFuel] at hv ⊢
        have h1 := encMapLen_length_pos es.length
        have h2 := ihEs es (by omega)
        simp only [encodeMp, List.length_append]
        omega
    · intro es hes
      cases es with
      | nil => simp [esFuel]
      | cons kv es =>
        obtain ⟨k, v⟩ := kv
        simp only [esFuel] at hes ⊢
        have h1 := ihMp k (by omega)
        have h2 := ihMp v (by omega)
        have h3 := ihEs es (by omega)
        simp only [encEntries, List.length_append]
        omega

theorem mpFuel_le_encLen (v : Mp) : mpFuel v + 1 ≤ 2 * (encodeMp v).length :=
  (encLen_bound (mpFuel v)).1 v le_rfl

theorem mpLookup_cons_eq (key : List Nat) (v : Mp) (es : List (Mp × Mp)) :
    mpLookup ((Mp.str key, v) :: es) key = some v := by
  simp [mpLookup]

theorem mpLookup_cons_ne (bs key : List Nat) (v : Mp) (es : List (Mp × Mp))
    (h : bs ≠ key) : mpLookup ((Mp.str bs, v) :: es) key = mpLookup es key := by
  simp [mpLookup, h]

theorem labelPairs_map (ls : List (List Nat × List Nat)) :
    labelPairs (ls.map fun kv => ((Mp.str kv.1 : Mp), (Mp.str kv.2 : Mp))) = some ls := by
  induction ls with
  | nil => simp [labelPairs]
  | cons kv ls ih => simp [labelPairs, ih]

theorem opOf_opTag (op : MetricOperation) :
    opOf (opTag op) (opValueMp op) = some op := by
  cases op <;> simp [opOf, opTag, opValueMp, asUInt, asF64]

theorem kindOf_kindName (k : MetricKind) : kindOfName (kindName k) = some k := by
  cases k <;> simp [kindOfName, kindName]

theorem wfEntries_labels (ls : List (List Nat × List Nat))
    (h : (ls.all fun kv => wfBytes kv.1 && wfBytes kv.2) = true) :
    wfEntries (ls.map fun kv => ((Mp.str kv.1 : Mp), (Mp.str kv.2 : Mp))) = true := by
  induction ls with
  | nil => simp [wfEntries]
  | cons kv ls ih =>
    simp only [List.all_cons, Bool.and_eq_true] at h
    simp only [List.map_cons, wfEntries, wfMp, Bool.and_eq_true]
    exact ⟨⟨h.1.1, h.1.2⟩, ih h.2⟩

theorem wfMp_eventToMp (e : MetricEvent) (hw : wfEvent e = true) :
    wfMp (eventToMp e) = true := by
  have c1 : wfBytes keyType = true := by decide
  have c2 : wfBytes valMetadata = true := by decide
  have c3 : wfBytes valMetric = true := by decide
  have c4 : wfBytes keyName = true := by decide
  have c5 : wfBytes keyKind = true := by decide
  have c6 : wfBytes keyDescription = true := by decide
  have c7 : wfBytes keyUnit = true := by decide
  have c8 : wfBytes keyLabels = true := by decide
  have c9 : wfBytes keyOperation = true := by decide
  have c10 : wfBytes keyValue = true := by decide
  cases e with
  | metadata m =>
    obtain ⟨name, kind, description, unit⟩ := m
    simp only [wfEvent, Bool.and_eq_true] at hw
    obtain ⟨⟨hname, hdesc⟩, hunit⟩ := hw
    have ck : wfBytes (kindName kind) = true := by cases kind <;> decide
    cases unit with
    | none =>
      simp [eventToMp, wfMp, wfEntries, c1, c2, c4, c5, c6, ck, hname, hdesc]
    | some u =>
      have hu : wfBytes u = true := by simpa using hunit
      simp [eventToMp, wfMp, wfEntries, c1, c2, c4, c5, c6, c7, ck, hname, hdesc, hu]
  | metric d =>
    obtain ⟨name, labels, operation⟩ := d
    simp only [wfEvent, Bool.and_eq_true] at hw
    obtain ⟨⟨hname, hlab⟩, hop⟩ := hw
    simp only [wfLabels, Bool.and_eq_true, decide_eq_true_eq] at hlab
    obtain ⟨⟨hlen, hall⟩, _⟩ := hlab
    have hTag : wfBytes (opTag operation) = true := by
      cases operation <;> (simp only [opTag]; decide)
    have hVal : wfMp (opValueMp operation) = true := by
      cases operation <;> simp_all [wfOperation, opValueMp, wfMp]
    have hLabs := wfEntries_labels labels hall
    simp [eventToMp, wfMp, wfEntries, labelsMp, c1, c3, c4, c8, c9, c10, hname, hTag,
      hVal, hLabs, hlen, List.length_map]

theorem eventOfMp_eventToMp (e : MetricEvent) (hw : wfEvent e = true) :
    eventOfMp (eventToMp e) = some e := by
  cases e with
  | metadata m =>
    obtain ⟨name, kind, description, unit⟩ := m
    cases unit with
    | none =>
      simp [eventToMp, eventOfMp, mpLookup, asStr, Option.bind, kindOf_kindName,
        keyType, keyName, keyKind, keyDescription, keyUnit, valMetadata, valMetric]
    | some u =>
      simp [eventToMp, eventOfMp, mpLookup, asStr, Option.bind, kindOf_kindName,
        keyType, keyName, keyKind, keyDescription, keyUnit, valMetadata, valMetric]
  | metric d =>
    obtain ⟨name, labels, operation⟩ := d
    simp only [wfEvent, wfLabels, Bool.and_eq_true, decide_eq_true_eq] at hw
    obtain ⟨⟨hname, ⟨⟨hlen, hall⟩, hsorted⟩⟩, hop⟩ := hw
    have hbt : btOfList labels = labels := btOfList_sorted_id labels hsorted
    simp [eventToMp, eventOfMp, mpLookup, asStr, Option.bind, labelsOfMp, labelsMp,
      labelPairs_map, opOf_opTag, hbt, keyType, keyName, keyLabels, keyOperation,
      keyValue, valMetadata, valMetric]

theorem decode_encode_append (e : MetricEvent) (hw : wfEvent e = true)
    (rest : List Nat) : decodeEvent (encodeEvent e ++ rest) = some e := by
  have hwm : wfMp (eventToMp e) = true := wfMp_eventToMp e hw
  have hbound := mpFuel_le_encLen (eventToMp e)
  have hlen : (encodeEvent e ++ rest).length =
      (encodeMp (eventToMp e)).length + rest.length := by
    simp [encodeEvent]
  unfold decodeEvent
  rw [show 2 * (encodeEvent e ++ rest).length + 2 =
      (2 * (encodeEvent e ++ rest).length + 2 - mpFuel (eventToMp e)) +
        mpFuel (eventToMp e) from by omega]
  rw [show encodeEvent e ++ rest = encodeMp (eventToMp e) ++ rest from rfl]
  rw [parse_encMp (eventToMp e) hwm
    (2 * (encodeMp (eventToMp e) ++ rest).length + 2 - mpFuel (eventToMp e)) rest]
  exact eventOfMp_eventToMp e hw

/-- C1: the claim states that for every valid `MetricEvent` the encoded byte
sequence contains no occurrence of the reserved terminator byte `0x0A`, so
that appending the terminator never lets a reader split one encoded event
into two frames.  The code violates this: MessagePack freely emits `0x0A`
(here the uint16 payload of the counter value 2571 is the bytes
`0xCD 0x0A 0x0B`), and on the wire `read_until(b'\n')` then splits the event
into two frames, both of which fail to decode, so the event is lost.  This
theorem evaluates the code at that failing input: the event is valid, its
encoding contains `0x0A`, and the framed stream splits into exactly two
undecodable frames. -/
theorem claim_C1_terminator_appears_in_encoding :
    wfEvent (.metric ⟨[97], [], .incrementCounter 2571⟩) = true ∧
    10 ∈ encodeEvent (.metric ⟨[97], [], .incrementCounter 2571⟩) ∧
    (splitFrames (encodeEvent (.metric ⟨[97], [], .incrementCounter 2571⟩) ++ [10])).map
        decodeEvent = [none, none] := by
  decide

/-- C2: for every valid `MetricEvent` (metadata or metric, empty or multi-key
sorted label sets, counter values up to `u64::MAX`, arbitrary `f64` bit
patterns), decoding the encoding succeeds and returns an event equal to the
original, with the `u64` and `f64` payloads preserved exactly. -/
theorem claim_C2_roundtrip (e : MetricEvent) (hw : wfEvent e = true) :
    decodeEvent (encodeEvent e) = some e := by
  have h := decode_encode_append e hw []
  simpa using h

/-- Witness for C2 at a concrete event: a metric with two sorted labels (one
label value containing the byte `0x0A`) and the counter payload `u64::MAX`. -/
theorem claim_C2_roundtrip_witness :
    wfEvent (.metric ⟨[97], [([107, 49], [118]), ([107, 50], [119, 10])],
        .incrementCounter 18446744073709551615⟩) = true ∧
    decodeEvent (encodeEvent (.metric ⟨[97], [([107, 49], [118]), ([107, 50], [119, 10])],
        .incrementCounter 18446744073709551615⟩)) =
      some (.metric ⟨[97], [([107, 49], [118]), ([107, 50], [119, 10])],
        .incrementCounter 18446744073709551615⟩) :=
  ⟨by decide, claim_C2_roundtrip _ (by decide)⟩

/-- C5: the receive loops decode from the buffer filled by `read_until`,
which still holds the trailing `0x0A`; for every valid event, `write_event`
puts exactly the encoding plus the terminator on the wire, and decoding the
encoding with the trailing terminator still yields the event (the decoder
reads one MessagePack value and ignores trailing bytes). -/
theorem claim_C5_terminator_tolerated (e : MetricEvent) (hw : wfEvent e = true)
    (st : Stream) (hst : st.healthy = true) :
    write_event st e = .ok ⟨st.buf ++ encodeEvent e ++ [10], st.healthy⟩ ∧
    decodeEvent (encodeEvent e ++ [10]) = some e := by
  constructor
  · obtain ⟨buf, healthy⟩ := st
    have hb : healthy = true := hst
    subst hb
    simp [write_event]
  · exact decode_encode_append e hw [10]

/-- Witness for C5 at a concrete event: a gauge set to the bit pattern of the
negative float -1.5, written on a healthy stream. -/
theorem claim_C5_terminator_tolerated_witness :
    (wfEvent (.metric ⟨[103], [], .setGauge 13832806255468478464⟩) = true ∧
      (Stream.mk [] true).healthy = true) ∧
    (write_event (Stream.mk [] true)
        (.metric ⟨[103], [], .setGauge 13832806255468478464⟩) =
      .ok ⟨[] ++ encodeEvent (.metric ⟨[103], [], .setGauge 13832806255468478464⟩) ++
        [10], true⟩ ∧
      decodeEvent (encodeEvent (.metric ⟨[103], [], .setGauge 13832806255468478464⟩) ++
        [10]) = some (.metric ⟨[103], [], .setGauge 13832806255468478464⟩)) :=
  ⟨⟨by decide, rfl⟩, claim_C5_terminator_tolerated _ (by decide) _ rfl⟩

/-- C6: every instrument update call on a recorder handle returns without
propagating an error, even when the write path (serialization or transport)
fails; on a failed stream each of the six update methods leaves the stream
unchanged and surfaces nothing (`let _ = write_event(..)`). -/
theorem claim_C6_update_errors_swallowed (st : Stream) (key : Key) (v b : Nat)
    (hst : st.healthy = false) :
    CounterFn.increment st key v = st ∧ CounterFn.absolute st key v = st ∧
    GaugeFn.increment st key b = st ∧ GaugeFn.decrement st key b = st ∧
    GaugeFn.set st key b = st ∧ HistogramFn.record st key b = st := by
  refine ⟨?_, ?_, ?_, ?_, ?_, ?_⟩ <;>
    simp [CounterFn.increment, CounterFn.absolute, GaugeFn.increment,
      GaugeFn.decrement, GaugeFn.set, HistogramFn.record, push_metric, write_event, hst]

/-- Witness for C6 on a concretely failed stream. -/
theorem claim_C6_update_errors_swallowed_witness :
    (Stream.mk [] false).healthy = false ∧
    CounterFn.increment (Stream.mk [] false) (Key.mk [97] []) 1 = Stream.mk [] false :=
  ⟨rfl, (claim_C6_update_errors_swallowed (Stream.mk [] false) (Key.mk [97] []) 1 2
    rfl).1⟩

/-- C7: label sets with the same key-to-value pairs built in any insertion
order produce the same canonical `BTreeMap` (iterating in strictly sorted key
order) and hence byte-identical encodings of a `MetricData` carrying them. -/
theorem claim_C7_label_canonical_form (ps qs : List (List Nat × List Nat))
    (name : List Nat) (op : MetricOperation)
    (hnd : (ps.map Prod.fst).Nodup) (hperm : ps.Perm qs) :
    btOfList ps = btOfList qs ∧
    List.Pairwise (fun p q => bytesLt p.1 q.1 = true) (btOfList ps) ∧
    encodeEvent (.metric ⟨name, btOfList ps, op⟩) =
      encodeEvent (.metric ⟨name, btOfList qs, op⟩) := by
  have h := btOfList_canonical ps qs hnd hperm
  exact ⟨h, btOfList_pairwise ps, by rw [h]⟩

/-- Witness for C7: the same two pairs inserted in both orders. -/
theorem claim_C7_label_canonical_form_witness :
    (([([98], [50]), ([97], [49])].map Prod.fst).Nodup ∧
      List.Perm [([98], [50]), ([97], [49])] [([97], [49]), ([98], [50])]) ∧
    (btOfList [([98], [50]), ([97], [49])] = btOfList [([97], [49]), ([98], [50])] ∧
      List.Pairwise (fun p q => bytesLt p.1 q.1 = true)
        (btOfList [([98], [50]), ([97], [49])]) ∧
      encodeEvent (.metric ⟨[110], btOfList [([98], [50]), ([97], [49])],
          .incrementCounter 1⟩) =
        encodeEvent (.metric ⟨[110], btOfList [([97], [49]), ([98], [50])],
          .incrementCounter 1⟩)) :=
  ⟨⟨by decide, by decide⟩,
    claim_C7_label_canonical_form _ _ [110] (.incrementCounter 1) (by decide) (by decide)⟩

/-- C8: the facade bridge maps every decoded metric event to exactly the call
the specification describes: the plain call form exactly when the label set
is empty, the labeled form otherwise, with the six operation variants mapped
one to one (increment/absolute on counters, increment/decrement/set on
gauges, record on histograms). -/
theorem claim_C8_bridge_selects_call_form (d : MetricData) :
    handle_metric_event d = specBridgeCall d ∧
    callLabels (handle_metric_event d) =
      (if d.labels.isEmpty then none else some d.labels) := by
  obtain ⟨name, labels, operation⟩ := d
  cases operation <;> by_cases h : labels.isEmpty <;>
    simp [handle_metric_event, specBridgeCall, callLabels, h]

/-- C3 (counterexample): the claim states that in every per-connection read
loop a transport-level read error terminates the loop, so nothing is
dispatched after a read error.  In the named-socket collector the loop
instead skips read errors (`Err(_) => {}`) and keeps reading: after a read
error it still dispatches the following valid frame. -/
theorem claim_C3_socket_loop_survives_read_error :
    socketConnLoop [ReadResult.fail,
      ReadResult.frame (encodeEvent (.metric ⟨[98], [], .incrementCounter 1⟩) ++ [10]),
      ReadResult.eof] =
      [FacadeCall.counterIncrement [98] none 1] := by
  decide

/-- C3 (amended): a transport-level read error logs and terminates the read
loop of the pipe collector (returning success, affecting only that
connection); in the named-socket collector per-connection loop a read error
is skipped and the loop continues with the next read. -/
theorem claim_C3_read_error_behaviour (rest : List ReadResult) :
    pipeRunCollector (ReadResult.fail :: rest) = .ok [] ∧
    socketConnLoop (ReadResult.fail :: rest) = socketConnLoop rest :=
  ⟨rfl, rfl⟩

/-- C4: on any finite sequence of frames on one connection, both
per-connection loops dispatch exactly the frames that decode, one facade
call per decoded event, in arrival order; an undecodable frame contributes
nothing and does not terminate the loop (later frames are still
dispatched). -/
theorem claim_C4_decode_failures_skipped (frames : List (List Nat)) :
    socketConnLoop (frames.map ReadResult.frame) =
      (frames.filterMap decodeEvent).map eventCall ∧
    pipeRunCollector (frames.map ReadResult.frame) =
      Except.ok ((frames.filterMap decodeEvent).map eventCall) := by
  induction frames with
  | nil => exact ⟨rfl, rfl⟩
  | cons f frames ih =>
    obtain ⟨ih1, ih2⟩ := ih
    constructor
    · simp only [List.map_cons, socketConnLoop, ih1]
      cases h : decodeEvent f <;> simp [dispatchFrame, h, List.filterMap_cons]
    · simp only [List.map_cons, pipeRunCollector, ih2]
      cases h : decodeEvent f <;> simp [dispatchFrame, h, List.filterMap_cons]

/-- C9: when the producer closes the send end, the pipe read loop observes
the zero-length read after the frames sent so far, terminates, and
`run_collector` returns success (`Ok`), having dispatched exactly the
decoded frames. -/
theorem claim_C9_pipe_eof_is_normal_termination (frames : List (List Nat))
    (rest : List ReadResult) :
    pipeRunCollector (frames.map ReadResult.frame ++ ReadResult.eof :: rest) =
      Except.ok ((frames.filterMap decodeEvent).map eventCall) := by
  induction frames with
  | nil => rfl
  | cons f frames ih =>
    simp only [List.map_cons, List.cons_append, pipeRunCollector]
    cases h : decodeEvent f <;> simp [dispatchFrame, h, List.filterMap_cons, ih]

end MetricsIpc
